import Mathlib

/-!
Verification of the chunked audio-transcription pipeline in
`audio_transcription.py` (whisper-transcribe).

Python text is modelled as `List Char` (ASCII scope).  Pure helpers of the
source (`_tokenize_words`, `_drop_leading_tokens`, `_merge_transcripts`) are
translated directly; the stateful parts (the bounded chunk queue fed by
`audio_callback`, the window assembly loop of `_chunk_transcription_worker`,
and the finalize decision of `process_recording`) are translated as explicit
state-passing functions over the sequence of audio blocks.
-/

set_option maxHeartbeats 1000000

namespace WhisperTranscribe

/-- A character matched by Python's regex `\w` (ASCII scope):
letters, digits and the underscore. -/
def isWordChar (c : Char) : Bool := c.isAlphanum || c == '_'

/-- A character stripped by Python's `str.strip()` (ASCII whitespace). -/
def isSpaceChar (c : Char) : Bool :=
  c == ' ' || c == '\t' || c == '\n' || c == '\r' || c == '\x0b' || c == '\x0c'

/-- ASCII model of Python's `str.lower()`, character by character. -/
def toLowerChar (c : Char) : Char :=
  if c = 'A' then 'a' else if c = 'B' then 'b' else if c = 'C' then 'c'
  else if c = 'D' then 'd' else if c = 'E' then 'e' else if c = 'F' then 'f'
  else if c = 'G' then 'g' else if c = 'H' then 'h' else if c = 'I' then 'i'
  else if c = 'J' then 'j' else if c = 'K' then 'k' else if c = 'L' then 'l'
  else if c = 'M' then 'm' else if c = 'N' then 'n' else if c = 'O' then 'o'
  else if c = 'P' then 'p' else if c = 'Q' then 'q' else if c = 'R' then 'r'
  else if c = 'S' then 's' else if c = 'T' then 't' else if c = 'U' then 'u'
  else if c = 'V' then 'v' else if c = 'W' then 'w' else if c = 'X' then 'x'
  else if c = 'Y' then 'y' else if c = 'Z' then 'z' else c

/-- Python `text.lstrip()`. -/
def lstripText (t : List Char) : List Char := t.dropWhile isSpaceChar

/-- Python `text.strip()`: whitespace removed from both ends. -/
def stripText (t : List Char) : List Char :=
  ((t.dropWhile isSpaceChar).reverse.dropWhile isSpaceChar).reverse

/-- Maximal runs of word characters of a text, in order, with an
accumulator for the (reversed) run currently being read.  This is the list
of matches of `re.findall(r"\b\w+\b", ...)` / `re.finditer(r"\b\w+\b", ...)`. -/
def wordRunsAux : List Char → List Char → List (List Char)
  | [], cur => if cur.isEmpty then [] else [cur.reverse]
  | c :: cs, cur =>
    if isWordChar c then wordRunsAux cs (c :: cur)
    else if cur.isEmpty then wordRunsAux cs []
    else cur.reverse :: wordRunsAux cs []

/-- The word-character runs of a text (the regex matches, original case). -/
def wordRuns (t : List Char) : List (List Char) := wordRunsAux t []

/-- `_tokenize_words` (audio_transcription.py:911-912):
`re.findall(r"\b\w+\b", text.lower())`. -/
def tokenize_words (text : List Char) : List (List Char) :=
  wordRuns (text.map toLowerChar)

/-- The text that remains strictly after the end of the `n`-th word run,
scanning character by character; `inRun` records whether the previous
character belonged to a run.  This realises `matches[count-1].end()` of
`_drop_leading_tokens` as a cut position. -/
def cutAfterWords : Nat → Bool → List Char → List Char
  | _, _, [] => []
  | n, inRun, c :: cs =>
    if isWordChar c then cutAfterWords n true cs
    else if inRun then
      if n ≤ 1 then c :: cs
      else cutAfterWords (n - 1) false cs
    else cutAfterWords n false cs

/-- `_drop_leading_tokens` (audio_transcription.py:914-921): remove the first
`count` word-occurrences of `text` by word-boundary offsets; empty result
when `count` reaches the number of matches; the remainder is `lstrip`-ped. -/
def drop_leading_tokens (text : List Char) (count : Nat) : List Char :=
  if count = 0 then text
  else if (wordRuns text).length ≤ count then []
  else lstripText (cutAfterWords count false text)

/-- The overlap search of `_merge_transcripts`:
`for k in range(max_k, 1, -1): if suffix[-k:] == prefix[:k]: ...` —
the first (largest) `k ≥ 2` with matching run, if any. -/
def findOverlapK (sfx pfx : List (List Char)) : Nat → Option Nat
  | 0 => none
  | 1 => none
  | k + 2 =>
    if sfx.drop (sfx.length - (k + 2)) = pfx.take (k + 2) then some (k + 2)
    else findOverlapK sfx pfx (k + 1)

/-- `_merge_transcripts` (audio_transcription.py:923-948). -/
def merge_transcripts (prev_text0 new_text0 : List Char) (max_words : Nat) :
    List Char :=
  let prev_text := stripText prev_text0
  let new_text := stripText new_text0
  if prev_text.isEmpty then new_text
  else if new_text.isEmpty then prev_text
  else
    let prev_tokens := tokenize_words prev_text
    let new_tokens := tokenize_words new_text
    if prev_tokens.isEmpty || new_tokens.isEmpty then
      prev_text ++ ' ' :: new_text
    else
      let sfx := if max_words = 0 then prev_tokens
                 else prev_tokens.drop (prev_tokens.length - max_words)
      let pfx := new_tokens.take max_words
      match findOverlapK sfx pfx (min sfx.length pfx.length) with
      | some k =>
        let remainder := stripText (drop_leading_tokens new_text k)
        if remainder.isEmpty then prev_text
        else prev_text ++ ' ' :: remainder
      | none => prev_text ++ ' ' :: new_text

/-! ## The bounded chunk queue (`audio_callback`, audio_transcription.py:893-909)

`chunk_queue` is a `queue.Queue(maxsize=CHUNK_QUEUE_MAXSIZE)`; the callback
does `put_nowait` and counts `queue.Full` into `chunk_dropped_blocks`. -/

/-- State of the bounded chunk queue plus the drop counter. -/
structure ChunkQueueState where
  queued : List (List Int)
  dropped : Nat
  deriving DecidableEq, Repr

/-- One `audio_callback` invocation's effect on the chunk queue:
`put_nowait` succeeds unless the queue is full (`maxsize` positive and
reached), in which case the new block is discarded and the drop counter
incremented.  A `maxsize` of `0` models Python's unbounded queue. -/
def audio_callback_push (maxsize : Nat) (s : ChunkQueueState)
    (b : List Int) : ChunkQueueState :=
  if 0 < maxsize ∧ maxsize ≤ s.queued.length then
    { s with dropped := s.dropped + 1 }
  else
    { s with queued := s.queued ++ [b] }

/-- Feeding a sequence of blocks through `audio_callback` without any
consumer draining the queue. -/
def audio_callback_feed (maxsize : Nat) (s : ChunkQueueState)
    (bs : List (List Int)) : ChunkQueueState :=
  bs.foldl (audio_callback_push maxsize) s

/-! ## The finalize decision (`process_recording`, audio_transcription.py:1292-1354) -/

/-- Outcome of `process_recording`'s chunk-join decision: either the
incrementally merged transcript is delivered, or the controller proceeds to
the full-file transcription of the saved recording. -/
inductive FinalizeOutcome where
  | incremental (text : List Char)
  | fullFileFallback
  deriving DecidableEq, Repr

/-- The state read by `process_recording` when chunked transcription ran. -/
structure FinalizeCtx where
  lastRecordingFrames : Nat
  minFramesForChunk : Nat
  droppedBlocks : Nat
  transcriptError : Bool
  workerFinished : Bool
  chunkTranscript : List Char
  deriving DecidableEq, Repr

/-- `short_recording = last_recording_frames > 0 and
last_recording_frames < min_frames_for_chunk` (audio_transcription.py:1294). -/
def short_recording (c : FinalizeCtx) : Bool :=
  decide (0 < c.lastRecordingFrames) && decide (c.lastRecordingFrames < c.minFramesForChunk)

/-- The decision chain of `process_recording` (audio_transcription.py:1323-1354):
engine error, short recording, unfinished worker and dropped blocks each
force the full-file path; otherwise the stripped chunk transcript is
delivered when non-empty, and the code falls through to the full-file
transcription when it is empty. -/
def process_recording_decision (c : FinalizeCtx) : FinalizeOutcome :=
  if c.transcriptError then .fullFileFallback
  else if short_recording c then .fullFileFallback
  else if !c.workerFinished then .fullFileFallback
  else if 0 < c.droppedBlocks then .fullFileFallback
  else if !(stripText c.chunkTranscript).isEmpty then
    .incremental (stripText c.chunkTranscript)
  else .fullFileFallback

/-! ## Claims C1 and C10: the finalize decision -/

/-- C1 (counterexample): with every trust condition satisfied — the
recording is not short, no blocks were dropped, no engine error occurred and
the worker finished in time — a whitespace-only incremental transcript still
routes to the full-file fallback, so the fallback does not happen "if and
only if" one of the four listed conditions holds. -/
theorem finalize_trusted_empty_transcript_cex :
    process_recording_decision
        ⟨600000, 529200, 0, false, true, ("   ").data⟩ =
      FinalizeOutcome.fullFileFallback ∧
    short_recording ⟨600000, 529200, 0, false, true, ("   ").data⟩ = false ∧
    (⟨600000, 529200, 0, false, true, ("   ").data⟩ : FinalizeCtx).droppedBlocks = 0 ∧
    (⟨600000, 529200, 0, false, true, ("   ").data⟩ : FinalizeCtx).transcriptError = false ∧
    (⟨600000, 529200, 0, false, true, ("   ").data⟩ : FinalizeCtx).workerFinished = true := by
  decide

/-- C1 (amended): the controller performs the full-file fallback if and only
if the recording was short, blocks were dropped, a chunk reported an engine
error, the worker did not finish in time, **or the merged transcript strips
to the empty string**; and every decision is either the fallback or the
delivery of the stripped incremental transcript. -/
theorem finalize_fallback_iff (c : FinalizeCtx) :
    (process_recording_decision c = FinalizeOutcome.fullFileFallback ↔
      (c.transcriptError = true ∨ short_recording c = true ∨
        c.workerFinished = false ∨ 0 < c.droppedBlocks ∨
        stripText c.chunkTranscript = [])) ∧
    (process_recording_decision c = FinalizeOutcome.fullFileFallback ∨
      process_recording_decision c =
        FinalizeOutcome.incremental (stripText c.chunkTranscript)) := by
  unfold process_recording_decision
  split_ifs with h1 h2 h3 h4 h5 <;> simp_all

/-- C10 (confirmed): whenever every trust condition holds but the stripped
incremental transcript is empty, the decision is still the full-file
fallback; and an empty transcript is never delivered on the fast path. -/
theorem finalize_empty_transcript_forces_fallback :
    (∀ c : FinalizeCtx, short_recording c = false → c.droppedBlocks = 0 →
        c.transcriptError = false → c.workerFinished = true →
        stripText c.chunkTranscript = [] →
        process_recording_decision c = FinalizeOutcome.fullFileFallback) ∧
    (∀ (c : FinalizeCtx) (t : List Char),
        process_recording_decision c = FinalizeOutcome.incremental t →
        t ≠ []) := by
  constructor
  · intro c hs hd he hw ht
    unfold process_recording_decision
    split_ifs with h1 h2 h3 h4 h5 <;> simp_all
  · intro c t h
    unfold process_recording_decision at h
    split_ifs at h with h1 h2 h3 h4 h5
    simp_all

/-- Witness for C10: a concrete trusted-but-empty context is decided to the
full-file fallback. -/
theorem finalize_empty_transcript_forces_fallback_witness :
    process_recording_decision
        ⟨600000, 529200, 0, false, true, ("  ").data⟩ =
      FinalizeOutcome.fullFileFallback :=
  finalize_empty_transcript_forces_fallback.1 _
    (by decide) (by decide) (by decide) (by decide) (by decide)

/-! ## Claim C5: merge with an empty side -/

/-- C5 (counterexample): the empty string is not an exact right identity of
`_merge_transcripts` — the previous text is stripped, so
`merge(" x", "")` is `"x"`, not `" x"`. -/
theorem merge_empty_identity_cex :
    merge_transcripts (" x").data [] 30 = ("x").data ∧
    ("x").data ≠ (" x").data := by decide

/-- C5 (amended): merging with an empty side returns the *stripped* other
side; on already-stripped texts the empty string is a two-sided identity. -/
theorem merge_empty_strip_identity (t : List Char) (m : Nat) :
    merge_transcripts t [] m = stripText t ∧
    merge_transcripts [] t m = stripText t := by
  constructor
  · unfold merge_transcripts
    by_cases h : (stripText t).isEmpty <;> simp_all [stripText]
  · unfold merge_transcripts
    by_cases h : (stripText t).isEmpty <;> simp_all [stripText]

/-! ## Claim C7: the bounded queue never blocks and counts drops -/

/-- Closed form of feeding `bs` into the bounded queue with no consumer:
the queue fills up to capacity and every further block is counted as
dropped. -/
theorem audio_callback_feed_closed (maxsize : Nat) (hm : 0 < maxsize) :
    ∀ (bs : List (List Int)) (q : List (List Int)) (d : Nat),
      q.length ≤ maxsize →
      audio_callback_feed maxsize ⟨q, d⟩ bs =
        ⟨q ++ bs.take (maxsize - q.length),
          d + (bs.length - (maxsize - q.length))⟩ := by
  intro bs
  induction bs with
  | nil => intro q d _; simp [audio_callback_feed]
  | cons b bs ih =>
    intro q d h
    show audio_callback_feed maxsize
        (audio_callback_push maxsize ⟨q, d⟩ b) bs = _
    unfold audio_callback_push
    by_cases hq : maxsize ≤ q.length
    · have hqe : q.length = maxsize := le_antisymm h hq
      rw [if_pos ⟨hm, hq⟩]
      rw [ih q (d + 1) h]
      have h0 : maxsize - q.length = 0 := by omega
      simp [h0]
      omega
    · rw [if_neg (by intro hc; exact hq hc.2)]
      have hlt : q.length < maxsize := lt_of_not_le hq
      rw [ih (q ++ [b]) d (by simp; omega)]
      obtain ⟨k, hk⟩ : ∃ k, maxsize - q.length = k + 1 :=
        ⟨maxsize - q.length - 1, by omega⟩
      have hk' : maxsize - (q ++ [b]).length = k := by simp; omega
      rw [hk, hk']
      simp [List.take_succ_cons]

/-- C7 (confirmed): `audio_callback`'s push into the bounded chunk queue is a
total function (it never blocks); on a full queue the newest block is
discarded, the queue is unchanged and the drop counter increments by one;
pushing more blocks than the capacity without draining leaves a positive
drop count (exactly the excess). -/
theorem audio_callback_queue_policy (maxsize : Nat) (hm : 0 < maxsize) :
    (∀ (s : ChunkQueueState) (b : List Int), maxsize ≤ s.queued.length →
        audio_callback_push maxsize s b = ⟨s.queued, s.dropped + 1⟩) ∧
    (∀ bs : List (List Int), maxsize < bs.length →
        (audio_callback_feed maxsize ⟨[], 0⟩ bs).dropped =
          bs.length - maxsize ∧
        0 < (audio_callback_feed maxsize ⟨[], 0⟩ bs).dropped) := by
  constructor
  · intro s b hfull
    unfold audio_callback_push
    rw [if_pos ⟨hm, hfull⟩]
  · intro bs hlen
    rw [audio_callback_feed_closed maxsize hm bs [] 0 (by simp)]
    constructor
    · simp
    · simp; omega

/-- Witness for C7: capacity 2, five blocks pushed before any pop — the
queue keeps its first two blocks and three drops are counted. -/
theorem audio_callback_queue_policy_witness :
    audio_callback_push 2 ⟨[[1], [2]], 0⟩ [3] = ⟨[[1], [2]], 1⟩ ∧
    (audio_callback_feed 2 ⟨[], 0⟩ [[1], [2], [3], [4], [5]]).dropped = 3 ∧
    0 < (audio_callback_feed 2 ⟨[], 0⟩ [[1], [2], [3], [4], [5]]).dropped := by
  refine ⟨(audio_callback_queue_policy 2 (by decide)).1 _ _ (by decide), ?_, ?_⟩
  · exact ((audio_callback_queue_policy 2 (by decide)).2 _ (by decide)).1
  · exact ((audio_callback_queue_policy 2 (by decide)).2 _ (by decide)).2

/-! ## Structural lemmas about word runs, stripping and lowercasing -/

/-- Lowercasing does not change whether a character is a word character. -/
theorem isWordChar_toLowerChar (c : Char) :
    isWordChar (toLowerChar c) = isWordChar c := by
  unfold toLowerChar
  by_cases h1 : c = 'A'
  · subst h1; decide
  rw [if_neg h1]
  by_cases h2 : c = 'B'
  · subst h2; decide
  rw [if_neg h2]
  by_cases h3 : c = 'C'
  · subst h3; decide
  rw [if_neg h3]
  by_cases h4 : c = 'D'
  · subst h4; decide
  rw [if_neg h4]
  by_cases h5 : c = 'E'
  · subst h5; decide
  rw [if_neg h5]
  by_cases h6 : c = 'F'
  · subst h6; decide
  rw [if_neg h6]
  by_cases h7 : c = 'G'
  · subst h7; decide
  rw [if_neg h7]
  by_cases h8 : c = 'H'
  · subst h8; decide
  rw [if_neg h8]
  by_cases h9 : c = 'I'
  · subst h9; decide
  rw [if_neg h9]
  by_cases h10 : c = 'J'
  · subst h10; decide
  rw [if_neg h10]
  by_cases h11 : c = 'K'
  · subst h11; decide
  rw [if_neg h11]
  by_cases h12 : c = 'L'
  · subst h12; decide
  rw [if_neg h12]
  by_cases h13 : c = 'M'
  · subst h13; decide
  rw [if_neg h13]
  by_cases h14 : c = 'N'
  · subst h14; decide
  rw [if_neg h14]
  by_cases h15 : c = 'O'
  · subst h15; decide
  rw [if_neg h15]
  by_cases h16 : c = 'P'
  · subst h16; decide
  rw [if_neg h16]
  by_cases h17 : c = 'Q'
  · subst h17; decide
  rw [if_neg h17]
  by_cases h18 : c = 'R'
  · subst h18; decide
  rw [if_neg h18]
  by_cases h19 : c = 'S'
  · subst h19; decide
  rw [if_neg h19]
  by_cases h20 : c = 'T'
  · subst h20; decide
  rw [if_neg h20]
  by_cases h21 : c = 'U'
  · subst h21; decide
  rw [if_neg h21]
  by_cases h22 : c = 'V'
  · subst h22; decide
  rw [if_neg h22]
  by_cases h23 : c = 'W'
  · subst h23; decide
  rw [if_neg h23]
  by_cases h24 : c = 'X'
  · subst h24; decide
  rw [if_neg h24]
  by_cases h25 : c = 'Y'
  · subst h25; decide
  rw [if_neg h25]
  by_cases h26 : c = 'Z'
  · subst h26; decide
  rw [if_neg h26]

/-- Whitespace characters are not word characters. -/
theorem isWordChar_eq_false_of_space (c : Char) (h : isSpaceChar c = true) :
    isWordChar c = false := by
  unfold isSpaceChar at h
  simp only [Bool.or_eq_true, beq_iff_eq] at h
  rcases h with ((((h | h) | h) | h) | h) | h <;> subst h <;> decide

/-- A text with no word characters has no word runs beyond the accumulator. -/
theorem wordRunsAux_all_nonword :
    ∀ (w cur : List Char), (∀ c ∈ w, isWordChar c = false) →
      wordRunsAux w cur = if cur.isEmpty then [] else [cur.reverse] := by
  intro w
  induction w with
  | nil => intro cur _; rfl
  | cons c w ih =>
    intro cur h
    have hc : isWordChar c = false := h c (List.mem_cons_self ..)
    have hw : ∀ x ∈ w, isWordChar x = false :=
      fun x hx => h x (List.mem_cons_of_mem _ hx)
    by_cases hcur : cur.isEmpty <;>
      simp [wordRunsAux, hc, hcur, ih [] hw]

/-- A non-word character splits the run computation of an appended text. -/
theorem wordRunsAux_append_sep (c : Char) (hc : isWordChar c = false)
    (ys : List Char) :
    ∀ (xs cur : List Char),
      wordRunsAux (xs ++ c :: ys) cur =
        wordRunsAux xs cur ++ wordRunsAux ys [] := by
  intro xs
  induction xs with
  | nil =>
    intro cur
    by_cases hcur : cur.isEmpty <;> simp [wordRunsAux, hc, hcur]
  | cons x xs ih =>
    intro cur
    by_cases hx : isWordChar x
    · simp [wordRunsAux, hx, ih]
    · by_cases hcur : cur.isEmpty <;> simp [wordRunsAux, hx, hcur, ih]

/-- Appending word-character-free text does not change the word runs. -/
theorem wordRunsAux_append_nonword (w : List Char)
    (hw : ∀ c ∈ w, isWordChar c = false) :
    ∀ (xs cur : List Char),
      wordRunsAux (xs ++ w) cur = wordRunsAux xs cur := by
  intro xs
  induction xs with
  | nil =>
    intro cur
    rw [List.nil_append, wordRunsAux_all_nonword w cur hw]
    rfl
  | cons x xs ih =>
    intro cur
    by_cases hx : isWordChar x
    · simp [wordRunsAux, hx, ih]
    · by_cases hcur : cur.isEmpty <;> simp [wordRunsAux, hx, hcur, ih]

/-- Word runs commute with mapping a word-character-preserving function. -/
theorem wordRunsAux_map (f : Char → Char)
    (hf : ∀ c, isWordChar (f c) = isWordChar c) :
    ∀ (t cur : List Char),
      wordRunsAux (t.map f) (cur.map f) =
        (wordRunsAux t cur).map (List.map f) := by
  intro t
  induction t with
  | nil =>
    intro cur
    cases cur <;> simp [wordRunsAux, List.map_reverse]
  | cons c t ih =>
    intro cur
    by_cases hc : isWordChar c
    · have hfc : isWordChar (f c) = true := by rw [hf]; exact hc
      have := ih (c :: cur)
      simpa [wordRunsAux, hc, hfc] using this
    · have hc' : isWordChar c = false := by simpa using hc
      have hfc : isWordChar (f c) = false := by rw [hf]; exact hc'
      cases cur with
      | nil => simpa [wordRunsAux, hc', hfc] using ih []
      | cons a as =>
        have := ih []
        simpa [wordRunsAux, hc', hfc, List.map_reverse] using this

/-- Tokenizing is lowercasing the original-case word runs. -/
theorem tokenize_words_eq_map (t : List Char) :
    tokenize_words t = (wordRuns t).map (List.map toLowerChar) := by
  have := wordRunsAux_map toLowerChar isWordChar_toLowerChar t []
  simpa [tokenize_words, wordRuns] using this

/-- Leading-whitespace removal does not change the word runs. -/
theorem wordRuns_dropWhile_space (t : List Char) :
    wordRuns (t.dropWhile isSpaceChar) = wordRuns t := by
  induction t with
  | nil => rfl
  | cons c t ih =>
    by_cases hc : isSpaceChar c
    · have hw := isWordChar_eq_false_of_space c hc
      simp only [List.dropWhile_cons, hc, if_true]
      rw [ih]
      show wordRuns t = wordRuns (c :: t)
      simp [wordRuns, wordRunsAux, hw]
    · simp [List.dropWhile_cons, hc]

/-- `strip` does not change the word runs. -/
theorem wordRuns_stripText (t : List Char) :
    wordRuns (stripText t) = wordRuns t := by
  unfold stripText
  have hdecomp : t.dropWhile isSpaceChar =
      ((t.dropWhile isSpaceChar).reverse.dropWhile isSpaceChar).reverse ++
        ((t.dropWhile isSpaceChar).reverse.takeWhile isSpaceChar).reverse := by
    rw [← List.reverse_append, List.takeWhile_append_dropWhile,
      List.reverse_reverse]
  have hws : ∀ c ∈ ((t.dropWhile isSpaceChar).reverse.takeWhile
      isSpaceChar).reverse, isWordChar c = false := by
    intro c hcmem
    rw [List.mem_reverse] at hcmem
    exact isWordChar_eq_false_of_space c (List.mem_takeWhile_imp hcmem)
  calc wordRuns ((t.dropWhile isSpaceChar).reverse.dropWhile
        isSpaceChar).reverse
      = wordRuns (((t.dropWhile isSpaceChar).reverse.dropWhile
          isSpaceChar).reverse ++
          ((t.dropWhile isSpaceChar).reverse.takeWhile isSpaceChar).reverse) :=
        (wordRunsAux_append_nonword _ hws _ []).symm
    _ = wordRuns (t.dropWhile isSpaceChar) := by rw [← hdecomp]
    _ = wordRuns t := wordRuns_dropWhile_space t

/-- A text stripping to the empty string is all whitespace. -/
theorem all_space_of_stripText_eq_nil (t : List Char)
    (h : stripText t = []) : ∀ c ∈ t, isSpaceChar c = true := by
  intro c hc
  unfold stripText at h
  rw [List.reverse_eq_nil_iff, List.dropWhile_eq_nil_iff] at h
  have hsplit := List.takeWhile_append_dropWhile isSpaceChar t
  rcases List.mem_append.mp (by rw [hsplit]; exact hc) with h1 | h2
  · exact List.mem_takeWhile_imp h1
  · exact h c (List.mem_reverse.mpr h2)

/-- A text stripping to the empty string has no tokens. -/
theorem tokenize_words_eq_nil_of_strip (t : List Char)
    (h : stripText t = []) : tokenize_words t = [] := by
  have hall : ∀ c ∈ t.map toLowerChar, isWordChar c = false := by
    intro c hcmem
    rcases List.mem_map.mp hcmem with ⟨a, ha, rfl⟩
    rw [isWordChar_toLowerChar]
    exact isWordChar_eq_false_of_space a
      (all_space_of_stripText_eq_nil t h a ha)
  unfold tokenize_words wordRuns
  rw [wordRunsAux_all_nonword _ [] hall]
  rfl

/-- Stripping does not change the tokens. -/
theorem tokenize_words_stripText (t : List Char) :
    tokenize_words (stripText t) = tokenize_words t := by
  rw [tokenize_words_eq_map, tokenize_words_eq_map, wordRuns_stripText]

/-- Tokens of two texts joined by a space are the two token lists appended. -/
theorem tokenize_words_append_space (a b : List Char) :
    tokenize_words (a ++ ' ' :: b) = tokenize_words a ++ tokenize_words b := by
  unfold tokenize_words wordRuns
  simp only [List.map_append, List.map_cons]
  exact wordRunsAux_append_sep (toLowerChar ' ') (by decide)
    (b.map toLowerChar) (a.map toLowerChar) []

/-- Cutting strictly after the `n`-th word run drops the first `n` runs. -/
theorem wordRuns_cutAfterWords :
    ∀ (t cur : List Char) (n : Nat), 1 ≤ n →
      wordRuns (cutAfterWords n (!cur.isEmpty) t) =
        (wordRunsAux t cur).drop n := by
  intro t
  induction t with
  | nil =>
    intro cur n hn
    cases cur with
    | nil => simp [cutAfterWords, wordRunsAux, wordRuns]
    | cons a as =>
      obtain ⟨m, rfl⟩ : ∃ m, n = m + 1 := ⟨n - 1, by omega⟩
      simp [cutAfterWords, wordRunsAux, wordRuns]
  | cons c t ih =>
    intro cur n hn
    by_cases hc : isWordChar c
    · have := ih (c :: cur) n hn
      simpa [cutAfterWords, wordRunsAux, hc] using this
    · have hc' : isWordChar c = false := by simpa using hc
      cases cur with
      | nil => simpa [cutAfterWords, wordRunsAux, hc'] using ih [] n hn
      | cons a as =>
        by_cases h1 : n ≤ 1
        · have hn1 : n = 1 := by omega
          subst hn1
          simp [cutAfterWords, wordRunsAux, hc', wordRuns]
        · obtain ⟨m, rfl⟩ : ∃ m, n = m + 2 := ⟨n - 2, by omega⟩
          have hcut : cutAfterWords (m + 2) (!(a :: as).isEmpty) (c :: t) =
              cutAfterWords (m + 1) false t := by
            show cutAfterWords (m + 2) true (c :: t) = _
            conv_lhs => rw [cutAfterWords]
            rw [if_neg (by simp [hc']), if_pos rfl, if_neg (by omega)]
            norm_num
          have hruns : wordRunsAux (c :: t) (a :: as) =
              (a :: as).reverse :: wordRunsAux t [] := by
            simp [wordRunsAux, hc']
          rw [hcut, hruns, List.drop_succ_cons]
          exact ih [] (m + 1) (by omega)

/-- `_drop_leading_tokens` drops exactly the first `n` word runs. -/
theorem wordRuns_drop_leading_tokens (t : List Char) (n : Nat) (hn : 1 ≤ n) :
    wordRuns (drop_leading_tokens t n) = (wordRuns t).drop n := by
  unfold drop_leading_tokens
  rw [if_neg (by omega)]
  by_cases hlen : (wordRuns t).length ≤ n
  · rw [if_pos hlen, List.drop_eq_nil_of_le hlen]
    rfl
  · rw [if_neg hlen]
    unfold lstripText
    rw [wordRuns_dropWhile_space]
    simpa using wordRuns_cutAfterWords t [] n hn

/-- Token-level effect of `_drop_leading_tokens`. -/
theorem tokenize_words_drop_leading (t : List Char) (n : Nat) (hn : 1 ≤ n) :
    tokenize_words (drop_leading_tokens t n) = (tokenize_words t).drop n := by
  rw [tokenize_words_eq_map, tokenize_words_eq_map,
    wordRuns_drop_leading_tokens t n hn, List.map_drop]

/-- The overlap search returns the largest matching `k ≥ 2`. -/
theorem findOverlapK_eq_some (sfx pfx : List (List Char)) :
    ∀ (m k : Nat), 2 ≤ k → k ≤ m →
      sfx.drop (sfx.length - k) = pfx.take k →
      (∀ j < m + 1, k < j → sfx.drop (sfx.length - j) ≠ pfx.take j) →
      findOverlapK sfx pfx m = some k := by
  intro m
  induction m with
  | zero => intro k hk2 hkm _ _; omega
  | succ n ih =>
    intro k hk2 hkm hmatch hmax
    cases n with
    | zero => omega
    | succ n' =>
      show findOverlapK sfx pfx (n' + 2) = some k
      unfold findOverlapK
      by_cases he : sfx.drop (sfx.length - (n' + 2)) = pfx.take (n' + 2)
      · rw [if_pos he]
        have hkeq : k = n' + 2 := by
          by_contra hne
          exact hmax (n' + 2) (by omega) (by omega) he
        rw [hkeq]
      · rw [if_neg he]
        have hk : k ≤ n' + 1 := by
          by_contra hgt
          have : k = n' + 2 := by omega
          subst this
          exact he hmatch
        exact ih k hk2 hk hmatch (fun j hj hkj => hmax j (by omega) hkj)

/-- The overlap search fails when no `k ≥ 2` matches. -/
theorem findOverlapK_eq_none (sfx pfx : List (List Char)) :
    ∀ m : Nat,
      (∀ j < m + 1, 2 ≤ j → sfx.drop (sfx.length - j) ≠ pfx.take j) →
      findOverlapK sfx pfx m = none := by
  intro m
  induction m with
  | zero => intro _; rfl
  | succ n ih =>
    intro h
    cases n with
    | zero => rfl
    | succ n' =>
      show findOverlapK sfx pfx (n' + 2) = none
      unfold findOverlapK
      rw [if_neg (h (n' + 2) (by omega) (by omega))]
      exact ih (fun j hj h2 => h j (by omega) h2)

/-- Dropping to a bounded suffix window and then to the last `j` elements is
dropping to the last `j` elements. -/
theorem drop_window_drop {α : Type} (l : List α) (mw j : Nat)
    (hj : j ≤ min mw l.length) :
    (l.drop (l.length - mw)).drop ((l.drop (l.length - mw)).length - j) =
      l.drop (l.length - j) := by
  rw [List.length_drop, List.drop_drop]
  congr 1
  omega

/-- Taking a bounded window and then the first `j` elements is taking the
first `j` elements. -/
theorem take_window_take {α : Type} (l : List α) (mw j : Nat) (hj : j ≤ mw) :
    (l.take mw).take j = l.take j := by
  rw [List.take_take]
  congr 1
  omega

/-- Core characterization of `_merge_transcripts` when the largest matching
overlap within the window bound is `k`: the first `k` word-occurrences are
removed from the (stripped, original-cased) new text and the stripped
remainder is appended, or the stripped previous text is returned unchanged
when nothing remains. -/
theorem merge_overlap_core (P N : List Char) (m k : Nat)
    (hk2 : 2 ≤ k) (hkm : k ≤ m)
    (hkP : k ≤ (tokenize_words P).length)
    (hkN : k ≤ (tokenize_words N).length)
    (hmatch : (tokenize_words N).take k =
      (tokenize_words P).drop ((tokenize_words P).length - k))
    (hmax : ∀ j < min (min m (tokenize_words P).length)
        (min m (tokenize_words N).length) + 1, k < j →
        (tokenize_words N).take j ≠
          (tokenize_words P).drop ((tokenize_words P).length - j)) :
    merge_transcripts P N m =
      if (stripText (drop_leading_tokens (stripText N) k)).isEmpty
      then stripText P
      else stripText P ++ ' ' ::
        stripText (drop_leading_tokens (stripText N) k) := by
  have htokP : tokenize_words (stripText P) = tokenize_words P :=
    tokenize_words_stripText P
  have htokN : tokenize_words (stripText N) = tokenize_words N :=
    tokenize_words_stripText N
  have htPne : tokenize_words P ≠ [] := by
    intro h; rw [h] at hkP; simp at hkP; omega
  have htNne : tokenize_words N ≠ [] := by
    intro h; rw [h] at hkN; simp at hkN; omega
  have hPs : ¬(stripText P).isEmpty = true := by
    rw [List.isEmpty_iff]
    exact fun h => htPne (tokenize_words_eq_nil_of_strip P h)
  have hNs : ¬(stripText N).isEmpty = true := by
    rw [List.isEmpty_iff]
    exact fun h => htNne (tokenize_words_eq_nil_of_strip N h)
  have hm0 : ¬m = 0 := by omega
  have hfo : findOverlapK
      ((tokenize_words P).drop ((tokenize_words P).length - m))
      ((tokenize_words N).take m)
      (min ((tokenize_words P).drop ((tokenize_words P).length - m)).length
        ((tokenize_words N).take m).length) = some k := by
    apply findOverlapK_eq_some _ _ _ k hk2
    · rw [List.length_drop, List.length_take]
      omega
    · rw [drop_window_drop _ m k (by omega), take_window_take _ m k hkm]
      exact hmatch.symm
    · intro j hj hkj
      rw [List.length_drop, List.length_take] at hj
      rw [drop_window_drop _ m j (by omega), take_window_take _ m j (by omega)]
      exact fun he => hmax j (by omega) hkj he.symm
  simp only [merge_transcripts]
  rw [if_neg hPs, if_neg hNs, htokP, htokN]
  rw [if_neg (by simp [htPne, htNne]), if_neg hm0, hfo]

/-! ## Claim C2: the overlap search and removal -/

/-- C2 (counterexample): the claim's literal description — append the
remainder of the original-cased N (after removing the first k
word-occurrences) to P with one separating space — disagrees with the code:
the code strips both texts first, so for `P = "a b "` (trailing blank) and
`N = "a b c"` the code returns `"a b c"` while the described output is
`"a b  c"`; the overlap premise (first 2 tokens of N = last 2 tokens of P)
holds. -/
theorem merge_overlap_append_literal_cex :
    merge_transcripts ("a b ").data ("a b c").data 30 = ("a b c").data ∧
    (tokenize_words ("a b c").data).take 2 = tokenize_words ("a b ").data ∧
    ("a b c").data ≠ ("a b ").data ++ ' ' ::
      drop_leading_tokens ("a b c").data 2 := by
  decide

/-- C2 (amended): for nonempty texts with a largest matching overlap `k`
(searched from `min(len(suffix), len(prefix))` down to 2 over the
`max_words`-bounded lowercase token windows), the merge removes the first
`k` word-occurrences from the *stripped* original-cased N by word-boundary
offsets and appends the stripped remainder to the stripped P with one
separating space — returning stripped P alone when the remainder is empty. -/
theorem merge_overlap_largest_k (P N : List Char) (m k : Nat)
    (hk2 : 2 ≤ k) (hkm : k ≤ m)
    (hkP : k ≤ (tokenize_words P).length)
    (hkN : k ≤ (tokenize_words N).length)
    (hmatch : (tokenize_words N).take k =
      (tokenize_words P).drop ((tokenize_words P).length - k))
    (hmax : ∀ j < min (min m (tokenize_words P).length)
        (min m (tokenize_words N).length) + 1, k < j →
        (tokenize_words N).take j ≠
          (tokenize_words P).drop ((tokenize_words P).length - j)) :
    merge_transcripts P N m =
      if (stripText (drop_leading_tokens (stripText N) k)).isEmpty
      then stripText P
      else stripText P ++ ' ' ::
        stripText (drop_leading_tokens (stripText N) k) :=
  merge_overlap_core P N m k hk2 hkm hkP hkN hmatch hmax

/-- Witness for C2: `merge("a b c", "b c d")` with window 30 detects the
largest overlap `k = 2` and yields `"a b c d"`. -/
theorem merge_overlap_largest_k_witness :
    merge_transcripts ("a b c").data ("b c d").data 30 = ("a b c d").data := by
  have h := merge_overlap_largest_k ("a b c").data ("b c d").data 30 2
    (by decide) (by decide) (by decide) (by decide) (by decide) (by decide)
  rw [h]
  decide

/-! ## Claim C3: token count after an overlap merge -/

/-- C3 (counterexample): with `P = N = "a b a b"` the first 2 tokens of N
equal the last 2 tokens of P, but the token count of the merge is 4, not
`tokens(P) + tokens(N) - 2 = 6` — the loop removes the *largest* overlap
(here 4), not the hypothesised `k = 2`. -/
theorem merge_token_count_cex :
    (tokenize_words ("a b a b").data).take 2 =
      (tokenize_words ("a b a b").data).drop
        ((tokenize_words ("a b a b").data).length - 2) ∧
    (tokenize_words
        (merge_transcripts ("a b a b").data ("a b a b").data 30)).length ≠
      (tokenize_words ("a b a b").data).length +
        (tokenize_words ("a b a b").data).length - 2 := by
  decide

/-- C3 (amended): when `k` is the *largest* overlap within the window bound
(no longer run matches), the merged tokens are exactly
`tokens(P) ++ tokens(N).drop k` — no duplicated overlap tokens — and the
token count is `tokens(P) + tokens(N) - k`. -/
theorem merge_overlap_token_count (P N : List Char) (m k : Nat)
    (hk2 : 2 ≤ k) (hkm : k ≤ m)
    (hkP : k ≤ (tokenize_words P).length)
    (hkN : k ≤ (tokenize_words N).length)
    (hmatch : (tokenize_words N).take k =
      (tokenize_words P).drop ((tokenize_words P).length - k))
    (hmax : ∀ j < min (min m (tokenize_words P).length)
        (min m (tokenize_words N).length) + 1, k < j →
        (tokenize_words N).take j ≠
          (tokenize_words P).drop ((tokenize_words P).length - j)) :
    tokenize_words (merge_transcripts P N m) =
      tokenize_words P ++ (tokenize_words N).drop k ∧
    (tokenize_words (merge_transcripts P N m)).length =
      (tokenize_words P).length + (tokenize_words N).length - k := by
  have hcore := merge_overlap_core P N m k hk2 hkm hkP hkN hmatch hmax
  have hrem : tokenize_words (drop_leading_tokens (stripText N) k) =
      (tokenize_words N).drop k := by
    rw [tokenize_words_drop_leading _ k (by omega), tokenize_words_stripText]
  have h1 : tokenize_words (merge_transcripts P N m) =
      tokenize_words P ++ (tokenize_words N).drop k := by
    rw [hcore]
    by_cases hre :
        (stripText (drop_leading_tokens (stripText N) k)).isEmpty = true
    · rw [if_pos hre]
      have h3 : tokenize_words (drop_leading_tokens (stripText N) k) = [] :=
        tokenize_words_eq_nil_of_strip _ (List.isEmpty_iff.mp hre)
      rw [hrem] at h3
      rw [tokenize_words_stripText, h3, List.append_nil]
    · rw [if_neg hre, tokenize_words_append_space, tokenize_words_stripText,
        tokenize_words_stripText, hrem]
  refine ⟨h1, ?_⟩
  rw [h1, List.length_append, List.length_drop]
  omega

/-- Witness for C3: `merge("a b c", "b c d")` has token list
`[a, b, c, d]` and token count `3 + 3 - 2 = 4`. -/
theorem merge_overlap_token_count_witness :
    tokenize_words (merge_transcripts ("a b c").data ("b c d").data 30) =
      tokenize_words ("a b c").data ++
        (tokenize_words ("b c d").data).drop 2 ∧
    (tokenize_words
        (merge_transcripts ("a b c").data ("b c d").data 30)).length = 4 := by
  have h := merge_overlap_token_count ("a b c").data ("b c d").data 30 2
    (by decide) (by decide) (by decide) (by decide) (by decide) (by decide)
  exact ⟨h.1, by rw [h.2]; decide⟩

/-! ## Claim C4: no overlap degrades to plain concatenation -/

/-- C4 (counterexample): with `P = "a "` and `N = "b"` no shared token run
of length ≥ 2 exists (each side has a single one-letter token), yet
`merge(P, N)` is `"a b"`, not the verbatim `P ++ " " ++ N = "a  b"` —
the texts are stripped first. -/
theorem merge_no_overlap_verbatim_cex :
    tokenize_words ("a ").data = [['a']] ∧
    tokenize_words ("b").data = [['b']] ∧
    merge_transcripts ("a ").data ("b").data 30 ≠
      ("a ").data ++ ' ' :: ("b").data := by
  decide

/-- C4 (amended): when no token run of length ≥ 2 is shared between the
bounded suffix of P and the bounded prefix of N, the merge is the plain
concatenation of the *stripped* texts with a single separating space. -/
theorem merge_no_overlap_concat (P N : List Char) (m : Nat) (hm : m ≠ 0)
    (hP : stripText P ≠ []) (hN : stripText N ≠ [])
    (hnone : ∀ j < min (min m (tokenize_words P).length)
        (min m (tokenize_words N).length) + 1, 2 ≤ j →
        (tokenize_words N).take j ≠
          (tokenize_words P).drop ((tokenize_words P).length - j)) :
    merge_transcripts P N m = stripText P ++ ' ' :: stripText N := by
  have htokP := tokenize_words_stripText P
  have htokN := tokenize_words_stripText N
  have hPs : ¬(stripText P).isEmpty = true := by
    rw [List.isEmpty_iff]; exact hP
  have hNs : ¬(stripText N).isEmpty = true := by
    rw [List.isEmpty_iff]; exact hN
  simp only [merge_transcripts]
  rw [if_neg hPs, if_neg hNs, htokP, htokN]
  by_cases hPt : tokenize_words P = []
  · rw [if_pos (by simp [hPt])]
  · by_cases hNt : tokenize_words N = []
    · rw [if_pos (by simp [hNt])]
    · have hfo : findOverlapK
          ((tokenize_words P).drop ((tokenize_words P).length - m))
          ((tokenize_words N).take m)
          (min ((tokenize_words P).drop
              ((tokenize_words P).length - m)).length
            ((tokenize_words N).take m).length) = none := by
        apply findOverlapK_eq_none
        intro j hj h2
        rw [List.length_drop, List.length_take] at hj
        rw [drop_window_drop _ m j (by omega), take_window_take _ m j (by omega)]
        exact fun he => hnone j (by omega) h2 he.symm
      rw [if_neg (by simp [hPt, hNt]), if_neg hm, hfo]

/-- Witness for C4: two texts with no shared tokens concatenate with a
single space. -/
theorem merge_no_overlap_concat_witness :
    merge_transcripts ("hello world").data ("goodbye moon").data 30 =
      stripText ("hello world").data ++ ' ' ::
        stripText ("goodbye moon").data :=
  merge_no_overlap_concat _ _ 30 (by decide) (by decide) (by decide)
    (by decide)

/-! ## Claim C9: the concrete fox-jumps example -/

/-- Enlarging the word window beyond both token counts does not change the
merge. -/
theorem merge_transcripts_window_saturate (P N : List Char) (m1 m2 : Nat)
    (hm1 : m1 ≠ 0) (hm2 : m2 ≠ 0)
    (h1P : (tokenize_words (stripText P)).length ≤ m1)
    (h1N : (tokenize_words (stripText N)).length ≤ m1)
    (h2P : (tokenize_words (stripText P)).length ≤ m2)
    (h2N : (tokenize_words (stripText N)).length ≤ m2) :
    merge_transcripts P N m1 = merge_transcripts P N m2 := by
  simp only [merge_transcripts]
  rw [if_neg hm1, if_neg hm2, Nat.sub_eq_zero_of_le h1P,
    Nat.sub_eq_zero_of_le h2P, List.drop_zero,
    List.take_of_length_le h1N, List.take_of_length_le h2N]

/-- C9 (confirmed): for every overlap-merge word window of at least 4,
`merge("the quick brown fox jumps", "fox jumps over the lazy dog")` is
exactly `"the quick brown fox jumps over the lazy dog"`. -/
theorem merge_fox_jumps_example (m : Nat) (hm : 4 ≤ m) :
    merge_transcripts ("the quick brown fox jumps").data
        ("fox jumps over the lazy dog").data m =
      ("the quick brown fox jumps over the lazy dog").data := by
  rcases lt_or_ge m 7 with h7 | h7
  · interval_cases m <;> decide
  · rw [merge_transcripts_window_saturate _ _ m 7 (by omega) (by decide)
      (le_trans (by decide) h7) (le_trans (by decide) h7)
      (by decide) (by decide)]
    decide

/-- Witness for C9: the example at the default window 30. -/
theorem merge_fox_jumps_example_witness :
    merge_transcripts ("the quick brown fox jumps").data
        ("fox jumps over the lazy dog").data 30 =
      ("the quick brown fox jumps over the lazy dog").data :=
  merge_fox_jumps_example 30 (by decide)

/-! ## The chunk assembler (`_chunk_transcription_worker`, audio_transcription.py:964-1144)

Audio samples are opaque data (`Int` in the model); the worker slices the
block stream into windows of `chunk_frames` fresh samples, each prefixed by
the carried overlap tail, and flushes the leftover samples at stop. -/

/-- `pending_frames`: total frame count of the buffered blocks. -/
def pendingFrames (pending : List (List Int)) : Nat :=
  (pending.map List.length).sum

/-- The inner take-loop (audio_transcription.py:1034-1047): pull exactly
`remaining` frames off the front of `pending`, splitting a block when
needed; returns the pulled buffers and the remaining pending list. -/
def takeFrames : Nat → List (List Int) → List (List Int) × List (List Int)
  | _, [] => ([], [])
  | remaining, buf :: rest =>
    if remaining = 0 then ([], buf :: rest)
    else if buf.length ≤ remaining then
      let r := takeFrames (remaining - buf.length) rest
      (buf :: r.1, r.2)
    else ([buf.take remaining], buf.drop remaining :: rest)

/-- The inner `while pending_frames >= chunk_frames` loop
(audio_transcription.py:1029-1060): repeatedly slice one window's worth of
fresh frames, prefix the carried tail, emit the window, and carry the new
tail (the trailing `overlap_frames` slice of the emitted window, or the
whole window when it is no longer than the overlap).  `fuel` bounds the
iteration count; each iteration consumes `cf ≥ 1` frames, so
`pendingFrames pending` is always enough fuel. -/
def emitWindows (cf ov : Nat) :
    Nat → List (List Int) → Option (List Int) →
      List (List Int) × List (List Int) × Option (List Int)
  | 0, pending, tl => ([], pending, tl)
  | fuel + 1, pending, tl =>
    if cf ≤ pendingFrames pending then
      let tp := takeFrames cf pending
      if tp.1.isEmpty then ([], pending, tl)
      else
        let chunk_audio :=
          match tl with
          | some t => if 0 < t.length then t ++ tp.1.flatten else tp.1.flatten
          | none => tp.1.flatten
        let tl' :=
          if 0 < ov then
            if ov < chunk_audio.length then
              some (chunk_audio.drop (chunk_audio.length - ov))
            else some chunk_audio
          else none
        let r := emitWindows cf ov fuel tp.2 tl'
        (chunk_audio :: r.1, r.2)
    else ([], pending, tl)

/-- Worker state across the outer block-consuming loop. -/
structure WorkerState where
  windows : List (List Int)
  pending : List (List Int)
  tail : Option (List Int)
  deriving DecidableEq, Repr

/-- One outer-loop step (audio_transcription.py:1013-1060): receive a block
from the queue, append it to `pending`, then drain full windows. -/
def workerStep (cf ov : Nat) (st : WorkerState) (b : List Int) :
    WorkerState :=
  let pending := st.pending ++ [b]
  let r := emitWindows cf ov (pendingFrames pending) pending st.tail
  ⟨st.windows ++ r.1, r.2.1, r.2.2⟩

/-- Observable output of one worker run: the regular windows, and the final
flush window if any. -/
structure WorkerRun where
  windows : List (List Int)
  flush : Option (List Int)
  deriving DecidableEq, Repr

/-- The final flush audio (audio_transcription.py:1100-1102): the leftover
pending samples prefixed with the carried tail when one is present. -/
def flushAudio (tl : Option (List Int)) (pendingFlat : List Int) :
    List Int :=
  match tl with
  | some t => if 0 < t.length then t ++ pendingFlat else pendingFlat
  | none => pendingFlat

/-- A whole worker run (audio_transcription.py:994-1133): all queued blocks
are consumed in order with windows drained in between; at stop, when
`chunk_abort_short` is set the pending samples and tail are discarded,
otherwise any leftover pending samples are flushed as one final tail-prefixed
window (`if pending_frames > 0`). -/
def chunkWorkerRun (cf ov : Nat) (abortShort : Bool)
    (blocks : List (List Int)) : WorkerRun :=
  let st := blocks.foldl (workerStep cf ov) ⟨[], [], none⟩
  if abortShort then ⟨st.windows, none⟩
  else if 0 < pendingFrames st.pending then
    ⟨st.windows, some (flushAudio st.tail st.pending.flatten)⟩
  else ⟨st.windows, none⟩

/-- The carried tail as a plain list (`None` and the empty tail both prefix
nothing). -/
def tailPre : Option (List Int) → List Int
  | some t => t
  | none => []

/-- The tail carried after emitting `chunk` (audio_transcription.py:1056-1060). -/
def nextTail (ov : Nat) (chunk : List Int) : Option (List Int) :=
  if 0 < ov then
    if ov < chunk.length then some (chunk.drop (chunk.length - ov))
    else some chunk
  else none

/-- Flat-stream characterization of the drain loop: the emitted windows, the
leftover flat sample stream, and the carried tail, as a function of the
joined pending samples only. -/
def emitFlat (cf ov : Nat) :
    Nat → Option (List Int) → List Int →
      List (List Int) × List Int × Option (List Int)
  | 0, tl, S => ([], S, tl)
  | fuel + 1, tl, S =>
    if cf ≤ S.length then
      let chunk := tailPre tl ++ S.take cf
      let r := emitFlat cf ov fuel (nextTail ov chunk) (S.drop cf)
      (chunk :: r.1, r.2)
    else ([], S, tl)

/-- The pending-frame counter equals the length of the joined stream. -/
theorem pendingFrames_eq (p : List (List Int)) :
    pendingFrames p = p.flatten.length := by
  rw [List.length_flatten]
  rfl

/-- The take-loop pulls exactly the first `n` samples of the joined stream
and leaves exactly the rest. -/
theorem takeFrames_flatten :
    ∀ (p : List (List Int)) (n : Nat),
      (takeFrames n p).1.flatten = p.flatten.take n ∧
      (takeFrames n p).2.flatten = p.flatten.drop n := by
  intro p
  induction p with
  | nil => intro n; simp [takeFrames]
  | cons buf rest ih =>
    intro n
    by_cases h0 : n = 0
    · subst h0; simp [takeFrames]
    · by_cases hb : buf.length ≤ n
      · have hih := ih (n - buf.length)
        constructor
        · simp only [takeFrames, if_neg h0, if_pos hb, List.flatten_cons,
            hih.1, List.take_append_eq_append_take,
            List.take_of_length_le hb]
        · simp only [takeFrames, if_neg h0, if_pos hb, List.flatten_cons,
            hih.2, List.drop_append_eq_append_drop,
            List.drop_eq_nil_of_le hb, List.nil_append]
      · constructor
        · simp only [takeFrames, if_neg h0, if_neg hb, List.flatten_cons,
            List.flatten_nil, List.append_nil,
            List.take_append_eq_append_take]
          rw [Nat.sub_eq_zero_of_le (by omega), List.take_zero,
            List.append_nil]
        · simp only [takeFrames, if_neg h0, if_neg hb, List.flatten_cons,
            List.drop_append_eq_append_drop]
          rw [Nat.sub_eq_zero_of_le (by omega), List.drop_zero]

/-- The drain loop depends on the pending blocks only through their joined
sample stream: it computes `emitFlat`. -/
theorem emitWindows_eq_emitFlat (cf ov : Nat) (hcf : 1 ≤ cf) :
    ∀ (fuel : Nat) (pending : List (List Int)) (tl : Option (List Int)),
      (emitWindows cf ov fuel pending tl).1 =
        (emitFlat cf ov fuel tl pending.flatten).1 ∧
      (emitWindows cf ov fuel pending tl).2.1.flatten =
        (emitFlat cf ov fuel tl pending.flatten).2.1 ∧
      (emitWindows cf ov fuel pending tl).2.2 =
        (emitFlat cf ov fuel tl pending.flatten).2.2 := by
  intro fuel
  induction fuel with
  | zero => intro pending tl; simp [emitWindows, emitFlat]
  | succ fuel ih =>
    intro pending tl
    by_cases hc : cf ≤ pendingFrames pending
    · have hc' : cf ≤ pending.flatten.length := by
        rw [← pendingFrames_eq]; exact hc
      have htake := takeFrames_flatten pending cf
      have hne : ¬(takeFrames cf pending).1.isEmpty = true := by
        rw [List.isEmpty_iff]
        intro h
        have hlen := congrArg List.length (htake.1)
        rw [h, List.flatten_nil, List.length_take, List.length_nil] at hlen
        omega
      have hchunk :
          (match tl with
            | some t => if 0 < t.length
                then t ++ (takeFrames cf pending).1.flatten
                else (takeFrames cf pending).1.flatten
            | none => (takeFrames cf pending).1.flatten) =
          tailPre tl ++ pending.flatten.take cf := by
        rw [← htake.1]
        cases tl with
        | none => simp [tailPre]
        | some t =>
          by_cases ht : 0 < t.length
          · simp [tailPre, ht]
          · have ht0 : t = [] := by
              cases t with
              | nil => rfl
              | cons x xs => simp at ht
            simp [tailPre, ht0]
      have hih := ih (takeFrames cf pending).2
        (nextTail ov (tailPre tl ++ pending.flatten.take cf))
      rw [htake.2] at hih
      simp only [nextTail] at hih
      simp only [emitWindows, emitFlat, if_pos hc, if_pos hc', hchunk,
        nextTail]
      rw [if_neg hne]
      exact ⟨by rw [hih.1], hih.2.1, hih.2.2⟩
    · have hc' : ¬cf ≤ pending.flatten.length := by
        rw [← pendingFrames_eq]; exact hc
      have hcs : ¬cf ≤ (List.map List.length pending).sum := hc
      simp [emitWindows, emitFlat, hc, hc', hcs]

/-- `emitFlat` is independent of the fuel once the fuel covers the stream
length (each emission consumes at least one sample). -/
theorem emitFlat_fuel_indep (cf ov : Nat) (hcf : 1 ≤ cf) :
    ∀ (f1 f2 : Nat) (tl : Option (List Int)) (S : List Int),
      S.length ≤ f1 → S.length ≤ f2 →
      emitFlat cf ov f1 tl S = emitFlat cf ov f2 tl S := by
  intro f1
  induction f1 with
  | zero =>
    intro f2 tl S h1 _
    have hS : S = [] := by
      rw [← List.length_eq_zero]; omega
    subst hS
    cases f2 with
    | zero => rfl
    | succ f2 =>
      show ([], [], tl) = emitFlat cf ov (f2 + 1) tl []
      rw [emitFlat, if_neg (by simp; omega)]
  | succ f1 ih =>
    intro f2 tl S h1 h2
    cases f2 with
    | zero =>
      have hS : S = [] := by
        rw [← List.length_eq_zero]; omega
      subst hS
      show emitFlat cf ov (f1 + 1) tl [] = ([], [], tl)
      rw [emitFlat, if_neg (by simp; omega)]
    | succ f2 =>
      by_cases hcS : cf ≤ S.length
      · simp only [emitFlat, if_pos hcS]
        rw [ih f2 (nextTail ov (tailPre tl ++ S.take cf)) (S.drop cf)
          (by rw [List.length_drop]; omega) (by rw [List.length_drop]; omega)]
      · simp only [emitFlat, if_neg hcS]

/-- Processing an extended stream first emits exactly the windows of the
original stream and then continues from its leftover and carried tail. -/
theorem emitFlat_append (cf ov : Nat) (hcf : 1 ≤ cf) :
    ∀ (fuelA : Nat) (S1 S2 : List Int) (tl : Option (List Int)) (fuelB : Nat),
      S1.length ≤ fuelA → S1.length + S2.length ≤ fuelB →
      emitFlat cf ov fuelB tl (S1 ++ S2) =
        ((emitFlat cf ov fuelA tl S1).1 ++
          (emitFlat cf ov ((emitFlat cf ov fuelA tl S1).2.1.length + S2.length)
            (emitFlat cf ov fuelA tl S1).2.2
            ((emitFlat cf ov fuelA tl S1).2.1 ++ S2)).1,
         (emitFlat cf ov ((emitFlat cf ov fuelA tl S1).2.1.length + S2.length)
            (emitFlat cf ov fuelA tl S1).2.2
            ((emitFlat cf ov fuelA tl S1).2.1 ++ S2)).2) := by
  intro fuelA
  induction fuelA with
  | zero =>
    intro S1 S2 tl fuelB h1 h2
    have hS : S1 = [] := by
      rw [← List.length_eq_zero]; omega
    subst hS
    simp only [emitFlat, List.nil_append, List.length_nil, Nat.zero_add,
      List.nil_append]
    rw [emitFlat_fuel_indep cf ov hcf fuelB S2.length tl S2 (by simpa using h2)
      le_rfl]
  | succ fuelA ih =>
    intro S1 S2 tl fuelB h1 h2
    by_cases hcS : cf ≤ S1.length
    · have hcB : cf ≤ (S1 ++ S2).length := by
        rw [List.length_append]; omega
      obtain ⟨fB, rfl⟩ : ∃ fB, fuelB = fB + 1 :=
        ⟨fuelB - 1, by omega⟩
      have htk : (S1 ++ S2).take cf = S1.take cf := by
        rw [List.take_append_eq_append_take, Nat.sub_eq_zero_of_le hcS,
          List.take_zero, List.append_nil]
      have hdp : (S1 ++ S2).drop cf = S1.drop cf ++ S2 := by
        rw [List.drop_append_eq_append_drop, Nat.sub_eq_zero_of_le hcS,
          List.drop_zero]
      have hrec := ih (S1.drop cf) S2
        (nextTail ov (tailPre tl ++ S1.take cf)) fB
        (by rw [List.length_drop]; omega)
        (by rw [List.length_drop]; omega)
      simp only [emitFlat, if_pos hcS, if_pos hcB, htk, hdp]
      rw [hrec]
      simp [List.cons_append]
    · have hrA : emitFlat cf ov (fuelA + 1) tl S1 = ([], S1, tl) := by
        rw [emitFlat, if_neg hcS]
      rw [hrA]
      simp only [List.nil_append]
      rw [emitFlat_fuel_indep cf ov hcf fuelB (S1.length + S2.length) tl
        (S1 ++ S2) (by rw [List.length_append]; omega)
        (by rw [List.length_append])]

/-- Fold fusion: the per-block worker loop computes, over the whole run,
exactly `emitFlat` on the joined sample stream with no initial tail. -/
theorem workerFold_eq_emitFlat (cf ov : Nat) (hcf : 1 ≤ cf)
    (blocks : List (List Int)) :
    (blocks.foldl (workerStep cf ov) ⟨[], [], none⟩).windows =
        (emitFlat cf ov blocks.flatten.length none blocks.flatten).1 ∧
    (blocks.foldl (workerStep cf ov) ⟨[], [], none⟩).pending.flatten =
        (emitFlat cf ov blocks.flatten.length none blocks.flatten).2.1 ∧
    (blocks.foldl (workerStep cf ov) ⟨[], [], none⟩).tail =
        (emitFlat cf ov blocks.flatten.length none blocks.flatten).2.2 := by
  induction blocks using List.reverseRecOn with
  | nil => simp [emitFlat]
  | append_singleton bs b ih =>
    rw [List.foldl_append]
    have hflat : (bs ++ [b]).flatten = bs.flatten ++ b := by
      rw [List.flatten_append]
      simp
    have hcw := emitWindows_eq_emitFlat cf ov hcf
      (pendingFrames ((bs.foldl (workerStep cf ov) ⟨[], [], none⟩).pending
        ++ [b]))
      ((bs.foldl (workerStep cf ov) ⟨[], [], none⟩).pending ++ [b])
      (bs.foldl (workerStep cf ov) ⟨[], [], none⟩).tail
    have hpb : ((bs.foldl (workerStep cf ov)
        ⟨[], [], none⟩).pending ++ [b]).flatten =
        (emitFlat cf ov bs.flatten.length none bs.flatten).2.1 ++ b := by
      rw [List.flatten_append]
      simp [ih.2.1]
    have happ := emitFlat_append cf ov hcf bs.flatten.length bs.flatten b
      none ((bs ++ [b]).flatten.length) le_rfl
      (by rw [hflat, List.length_append])
    rw [hflat] at happ ⊢
    have hfuel : pendingFrames ((bs.foldl (workerStep cf ov)
        ⟨[], [], none⟩).pending ++ [b]) =
        (emitFlat cf ov bs.flatten.length none bs.flatten).2.1.length
          + b.length := by
      rw [pendingFrames_eq, hpb, List.length_append]
    refine ⟨?_, ?_, ?_⟩
    · show ((bs.foldl (workerStep cf ov) ⟨[], [], none⟩).windows ++
        (emitWindows cf ov _ _ _).1) = _
      rw [hcw.1, hfuel, hpb, ih.1, happ, ih.2.2]
    · show (emitWindows cf ov _ _ _).2.1.flatten = _
      rw [hcw.2.1, hfuel, hpb, happ, ih.2.2]
    · show (emitWindows cf ov _ _ _).2.2 = _
      rw [hcw.2.2, hfuel, hpb, happ, ih.2.2]

/-- The leftover stream after draining is exactly the tail of the input
stream past the last full window: `S.length % cf` samples. -/
theorem emitFlat_leftover (cf ov : Nat) (hcf : 1 ≤ cf) :
    ∀ (fuel : Nat) (tl : Option (List Int)) (S : List Int),
      S.length ≤ fuel →
      (emitFlat cf ov fuel tl S).2.1 = S.drop (cf * (S.length / cf)) ∧
      (emitFlat cf ov fuel tl S).2.1.length = S.length % cf := by
  intro fuel
  induction fuel with
  | zero =>
    intro tl S h1
    have hS : S = [] := by rw [← List.length_eq_zero]; omega
    subst hS
    simp [emitFlat]
  | succ fuel ih =>
    intro tl S h1
    by_cases hcS : cf ≤ S.length
    · have hrec := ih (nextTail ov (tailPre tl ++ S.take cf)) (S.drop cf)
        (by rw [List.length_drop]; omega)
      simp only [emitFlat, if_pos hcS]
      rw [List.length_drop] at hrec
      have hdiv : S.length / cf = (S.length - cf) / cf + 1 :=
        Nat.div_eq_sub_div (by omega) hcS
      have hmod : S.length % cf = (S.length - cf) % cf :=
        Nat.mod_eq_sub_mod hcS
      constructor
      · rw [hrec.1, List.drop_drop, hdiv, Nat.mul_succ]
        congr 1
        omega
      · rw [hrec.2, hmod]
    · simp only [emitFlat, if_neg hcS]
      have hlt : S.length < cf := by omega
      constructor
      · rw [Nat.div_eq_of_lt hlt, Nat.mul_zero, List.drop_zero]
      · rw [Nat.mod_eq_of_lt hlt]

/-- Shape of the emitted windows: the first window is the incoming tail plus
`cf` fresh samples, each later window is `ov + cf` samples and begins with
the previous window's trailing `ov` samples, every window has at least `cf`
samples, and the carried tail after draining is determined by the last
window. -/
theorem emitFlat_shape (cf ov : Nat) (_hcf : 1 ≤ cf) (hov : ov < cf) :
    ∀ (fuel : Nat) (tl : Option (List Int)) (S : List Int),
      S.length ≤ fuel →
      (∀ w, (emitFlat cf ov fuel tl S).1.get? 0 = some w →
          w.length = (tailPre tl).length + cf ∧
          w.take (tailPre tl).length = tailPre tl) ∧
      (∀ i w w', (emitFlat cf ov fuel tl S).1.get? i = some w →
          (emitFlat cf ov fuel tl S).1.get? (i + 1) = some w' →
          w'.length = ov + cf ∧ w'.take ov = w.drop (w.length - ov)) ∧
      (∀ w ∈ (emitFlat cf ov fuel tl S).1, cf ≤ w.length) ∧
      ((emitFlat cf ov fuel tl S).2.2 =
        match (emitFlat cf ov fuel tl S).1.getLast? with
        | none => tl
        | some w => nextTail ov w) := by
  intro fuel
  induction fuel with
  | zero =>
    intro tl S h1
    refine ⟨?_, ?_, ?_, ?_⟩ <;> simp [emitFlat]
  | succ fuel ih =>
    intro tl S h1
    by_cases hcS : cf ≤ S.length
    · have hchunklen : (tailPre tl ++ S.take cf).length =
          (tailPre tl).length + cf := by
        rw [List.length_append, List.length_take]
        omega
      have htl' : tailPre (nextTail ov (tailPre tl ++ S.take cf)) =
          (tailPre tl ++ S.take cf).drop
            ((tailPre tl ++ S.take cf).length - ov) := by
        unfold nextTail
        by_cases h0 : 0 < ov
        · rw [if_pos h0, if_pos (by omega)]
          rfl
        · rw [if_neg h0]
          have hov0 : ov = 0 := by omega
          show ([] : List Int) = _
          rw [hov0, Nat.sub_zero, List.drop_length]
      have htl'len : (tailPre (nextTail ov (tailPre tl ++ S.take cf))).length
          = ov := by
        rw [htl', List.length_drop]
        omega
      have hrec := ih (nextTail ov (tailPre tl ++ S.take cf)) (S.drop cf)
        (by rw [List.length_drop]; omega)
      simp only [emitFlat, if_pos hcS]
      refine ⟨?_, ?_, ?_, ?_⟩
      · intro w hw
        rw [List.get?_cons_zero, Option.some_inj] at hw
        subst hw
        exact ⟨hchunklen, List.take_left _ _⟩
      · intro i w w' hw hw'
        cases i with
        | zero =>
          rw [List.get?_cons_zero, Option.some_inj] at hw
          rw [List.get?_cons_succ] at hw'
          subst hw
          have hfirst := hrec.1 w' hw'
          rw [htl'len] at hfirst
          refine ⟨hfirst.1, ?_⟩
          rw [hfirst.2, htl', hchunklen]
        | succ i =>
          rw [List.get?_cons_succ] at hw hw'
          exact hrec.2.1 i w w' hw hw'
      · intro w hw
        rcases List.mem_cons.mp hw with hw | hw
        · subst hw; omega
        · exact hrec.2.2.1 w hw
      · rcases hlast : (emitFlat cf ov fuel
            (nextTail ov (tailPre tl ++ S.take cf)) (S.drop cf)).1 with
          _ | ⟨w0, ws⟩
        · have hthis := hrec.2.2.2
          rw [hlast] at hthis
          simp only [List.getLast?_nil] at hthis
          simpa using hthis
        · have hthis := hrec.2.2.2
          rw [hlast] at hthis
          rw [List.getLast?_cons_cons]
          cases hwl : (w0 :: ws).getLast? with
          | none => simp at hwl
          | some wl =>
            rw [hwl] at hthis
            exact hthis
    · refine ⟨?_, ?_, ?_, ?_⟩ <;> simp [emitFlat, if_neg hcS]

/-- The flush audio is the tail (as a plain list) followed by the leftover
samples. -/
theorem flushAudio_eq (tl : Option (List Int)) (D : List Int) :
    flushAudio tl D = tailPre tl ++ D := by
  cases tl with
  | none => rfl
  | some t =>
    by_cases ht : 0 < t.length
    · simp [flushAudio, tailPre, ht]
    · have ht0 : t = [] := by
        cases t with
        | nil => rfl
        | cons x xs => simp at ht
      simp [flushAudio, tailPre, ht0]

/-- The carried tail after a window of more than `ov` samples is its last
`ov` samples. -/
theorem tailPre_nextTail (ov : Nat) (chunk : List Int)
    (h : ov < chunk.length) :
    tailPre (nextTail ov chunk) = chunk.drop (chunk.length - ov) := by
  unfold nextTail
  by_cases h0 : 0 < ov
  · rw [if_pos h0, if_pos h]
    rfl
  · rw [if_neg h0]
    have hov0 : ov = 0 := by omega
    subst hov0
    show ([] : List Int) = _
    rw [Nat.sub_zero, List.drop_length]

/-- The regular windows of a run do not depend on the abort/flush branch. -/
theorem chunkWorkerRun_windows_eq (cf ov : Nat) (ab : Bool)
    (blocks : List (List Int)) :
    (chunkWorkerRun cf ov ab blocks).windows =
      (blocks.foldl (workerStep cf ov) ⟨[], [], none⟩).windows := by
  simp only [chunkWorkerRun]
  split_ifs <;> rfl

/-! ## Claim C6: window lengths and the overlap prefix -/

/-- C6 (counterexample): with `chunk_frames = 2` and `overlap_frames = 1`,
the second regular window of the stream `1..5` is `[2, 3, 4]` — three
samples, not the configured window length 2 — because every non-initial
window carries the overlap tail *in addition to* `chunk_frames` fresh
samples; `[4, 5]` is the separate final flush window. -/
theorem chunk_window_length_cex :
    (chunkWorkerRun 2 1 false [[1, 2, 3, 4, 5]]).windows =
      [[1, 2], [2, 3, 4]] ∧
    (chunkWorkerRun 2 1 false [[1, 2, 3, 4, 5]]).flush = some [4, 5] ∧
    ((chunkWorkerRun 2 1 false [[1, 2, 3, 4, 5]]).windows.get? 1 =
      some [2, 3, 4]) ∧
    ([2, 3, 4] : List Int).length ≠ 2 := by
  decide

/-- C6 (amended): the first emitted window has exactly `chunk_frames`
samples; every later regular window has `chunk_frames + overlap_frames`
samples; and every non-initial window's first `overlap_frames` samples equal
the previous window's last `overlap_frames` samples. -/
theorem chunk_window_shape (cf ov : Nat) (blocks : List (List Int))
    (hcf : 1 ≤ cf) (hov : ov < cf) :
    (∀ w, (chunkWorkerRun cf ov false blocks).windows.get? 0 = some w →
        w.length = cf) ∧
    (∀ i w w',
        (chunkWorkerRun cf ov false blocks).windows.get? i = some w →
        (chunkWorkerRun cf ov false blocks).windows.get? (i + 1) = some w' →
        w'.length = cf + ov ∧ w'.take ov = w.drop (w.length - ov)) := by
  have hwnd := (workerFold_eq_emitFlat cf ov hcf blocks).1
  have hshape := emitFlat_shape cf ov hcf hov blocks.flatten.length none
    blocks.flatten le_rfl
  rw [chunkWorkerRun_windows_eq, hwnd]
  constructor
  · intro w hw
    have h1 := (hshape.1 w hw).1
    simpa [tailPre] using h1
  · intro i w w' hw hw'
    have h2 := hshape.2.1 i w w' hw hw'
    exact ⟨by rw [h2.1, Nat.add_comm], h2.2⟩

/-- Witness for C6 (amended): in the concrete run `1..5` with
`chunk_frames = 2`, `overlap_frames = 1`, the first window has 2 samples and
the second has `2 + 1` samples opening with the first window's last sample. -/
theorem chunk_window_shape_witness :
    ([1, 2] : List Int).length = 2 ∧
    ([2, 3, 4] : List Int).length = 2 + 1 ∧
    ([2, 3, 4] : List Int).take 1 =
      ([1, 2] : List Int).drop (([1, 2] : List Int).length - 1) := by
  refine ⟨?_, ?_, ?_⟩
  · exact (chunk_window_shape 2 1 [[1, 2, 3, 4, 5]] (by decide)
      (by decide)).1 [1, 2] (by decide)
  · exact ((chunk_window_shape 2 1 [[1, 2, 3, 4, 5]] (by decide)
      (by decide)).2 0 [1, 2] [2, 3, 4] (by decide) (by decide)).1
  · exact ((chunk_window_shape 2 1 [[1, 2, 3, 4, 5]] (by decide)
      (by decide)).2 0 [1, 2] [2, 3, 4] (by decide) (by decide)).2

/-! ## Claim C8: the final flush window -/

/-- C8 (confirmed): after the queue is drained, a flush window is emitted
iff leftover samples remain (the stream length is not a multiple of
`chunk_frames`); the flush window is the carried tail (the last window's
trailing `overlap_frames` samples, nothing before the first window) followed
by exactly the leftover samples; and an abort-short run flushes nothing. -/
theorem chunk_flush_policy (cf ov : Nat) (blocks : List (List Int))
    (hcf : 1 ≤ cf) (hov : ov < cf) :
    (blocks.flatten.length % cf = 0 →
      (chunkWorkerRun cf ov false blocks).flush = none) ∧
    (blocks.flatten.length % cf ≠ 0 →
      (chunkWorkerRun cf ov false blocks).flush =
        some ((match (chunkWorkerRun cf ov false blocks).windows.getLast? with
                | none => ([] : List Int)
                | some w => w.drop (w.length - ov)) ++
              blocks.flatten.drop (cf * (blocks.flatten.length / cf)))) ∧
    (chunkWorkerRun cf ov true blocks).flush = none := by
  have hfold := workerFold_eq_emitFlat cf ov hcf blocks
  have hleft := emitFlat_leftover cf ov hcf blocks.flatten.length none
    blocks.flatten le_rfl
  have hshape := emitFlat_shape cf ov hcf hov blocks.flatten.length none
    blocks.flatten le_rfl
  have hpf : pendingFrames
      (blocks.foldl (workerStep cf ov) ⟨[], [], none⟩).pending =
      blocks.flatten.length % cf := by
    rw [pendingFrames_eq, hfold.2.1, hleft.2]
  refine ⟨?_, ?_, ?_⟩
  · intro h0
    simp only [chunkWorkerRun]
    rw [if_neg Bool.false_ne_true, if_neg (by rw [hpf]; omega)]
  · intro h0
    rw [chunkWorkerRun_windows_eq, hfold.1]
    simp only [chunkWorkerRun]
    rw [if_neg Bool.false_ne_true, if_pos (by rw [hpf]; omega)]
    rw [flushAudio_eq, hfold.2.2, hshape.2.2.2, hfold.2.1, hleft.1]
    cases hl : (emitFlat cf ov blocks.flatten.length none
        blocks.flatten).1.getLast? with
    | none => rfl
    | some w =>
      have hwmem : w ∈ (emitFlat cf ov blocks.flatten.length none
          blocks.flatten).1 := List.mem_of_getLast?_eq_some hl
      have hwlen : cf ≤ w.length := hshape.2.2.1 w hwmem
      show some (tailPre (nextTail ov w) ++ _) = _
      rw [tailPre_nextTail ov w (by omega)]
  · simp [chunkWorkerRun]

/-- Witness for C8: the run `1..5` with `chunk_frames = 2`,
`overlap_frames = 1` flushes `[4, 5]` (tail `[4]` plus leftover `[5]`),
while the run `1..4` flushes nothing. -/
theorem chunk_flush_policy_witness :
    (chunkWorkerRun 2 1 false [[1, 2, 3, 4, 5]]).flush = some [4, 5] ∧
    (chunkWorkerRun 2 1 false [[1, 2], [3, 4]]).flush = none := by
  constructor
  · have h := (chunk_flush_policy 2 1 [[1, 2, 3, 4, 5]] (by decide)
      (by decide)).2.1 (by decide)
    rw [h]
    decide
  · exact (chunk_flush_policy 2 1 [[1, 2], [3, 4]] (by decide)
      (by decide)).1 (by decide)

end WhisperTranscribe
